import Mathlib

/-!
Verification development for an SQL scanner and parser (Rust sources:
`src/tokenizer.rs`, `src/token.rs`, `src/parser.rs`, `src/statement.rs`).
The Rust code is embedded shallowly: machine integers become `Nat` with
explicit bounds where overflow matters, fallible functions return
`Except`/dedicated result types, and the `Peekable` iterators become
explicit `List` state passing (`head?` models `peek`, `tail` models
`next`/`advance`).  Recursive parsing functions take an explicit `fuel`
argument so that they are structurally recursive; the wrappers supply
fuel that is always sufficient for the actual call depth, and the
fuel-exhaustion branches are unreachable for those wrappers.
-/

/-- `Keyword` from `token.rs` lines 36-58. -/
inductive Keyword where
  | Select
  | Create
  | Table
  | Where
  | Order
  | By
  | Asc
  | Desc
  | From
  | And
  | Or
  | Not
  | True
  | False
  | Primary
  | Key
  | Check
  | Int
  | Bool
  | Varchar
  | Null
deriving DecidableEq, Repr

/-- `Token` from `token.rs` lines 11-32.  `Number` carries a `u64` in the
source; it is modelled as `Nat` (the tokenizer only produces values
`< 2^64`). -/
inductive Token where
  | Keyword (k : Keyword)
  | Identifier (s : String)
  | String (s : String)
  | Number (n : Nat)
  | Invalid (c : Char)
  | RightParentheses
  | LeftParentheses
  | GreaterThan
  | GreaterThanOrEqual
  | LessThan
  | LessThanOrEqual
  | Equal
  | NotEqual
  | Star
  | Divide
  | Minus
  | Plus
  | Comma
  | Semicolon
  | Eof
deriving DecidableEq, Repr

/-- `TokenizerError` from `tokenizer.rs` lines 14-17. -/
inductive TokenizerError where
  | UnterminatedString
  | UnexpectedChar (c : Char)
deriving DecidableEq, Repr

/-- Outcome of `Tokenizer::tokenize`: a Rust call either returns
`Ok(tokens)`, returns `Err(e)`, or panics (the `unwrap()` on number
parsing at `tokenizer.rs` line 153 can panic on `u64` overflow). -/
inductive LexResult where
  | ok (ts : List Token) : LexResult
  | err (e : TokenizerError) : LexResult
  | panic : LexResult
deriving DecidableEq, Repr

/-- The string-literal loop of `tokenize` (`tokenizer.rs` lines 118-137):
consumes characters until the matching `quote` (consumed, not kept) or
end of input, handling a backslash escape by keeping the escaped
character verbatim (all three escape arms push `next`).  Returns the
literal's characters and the remaining input, or `none` when the input
ends immediately after a backslash (line 132, `UnterminatedString`). -/
def read_string_body (quote : Char) : List Char → Option (List Char × List Char)
  | [] => some ([], [])
  | c :: rest =>
    if c = quote then some ([], rest)
    else if c = '\\' then
      match rest with
      | [] => none
      | e :: rest' =>
        match read_string_body quote rest' with
        | some (content, rem) => some (e :: content, rem)
        | none => none
    else
      match read_string_body quote rest with
      | some (content, rem) => some (c :: content, rem)
      | none => none

/-- Numeric value of a digit run, as accumulated by `str::parse::<u64>`
(`tokenizer.rs` line 153). -/
def digits_val (cs : List Char) : Nat :=
  cs.foldl (fun a c => 10 * a + (c.toNat - 48)) 0

/-- `num.parse::<u64>()` on a nonempty digit run: succeeds exactly when
the value fits in a `u64`; overflow yields `None` (Rust: `Err`, and the
`unwrap()` then panics). -/
def parse_u64 (cs : List Char) : Option Nat :=
  if digits_val cs < 2 ^ 64 then some (digits_val cs) else none

/-- The keyword table of `tokenize` (`tokenizer.rs` lines 168-191),
keyed by the lowercased identifier text. -/
def keyword_of : String → Option Keyword
  | "select" => some .Select
  | "from" => some .From
  | "where" => some .Where
  | "order" => some .Order
  | "by" => some .By
  | "create" => some .Create
  | "table" => some .Table
  | "int" => some .Int
  | "varchar" => some .Varchar
  | "bool" => some .Bool
  | "primary" => some .Primary
  | "key" => some .Key
  | "not" => some .Not
  | "null" => some .Null
  | "check" => some .Check
  | "true" => some .True
  | "false" => some .False
  | "and" => some .And
  | "or" => some .Or
  | "asc" => some .Asc
  | "desc" => some .Desc
  | _ => none

/-- `ident.to_lowercase()` (`tokenizer.rs` line 166); ASCII lowering
suffices for every character class the scanner can feed it. -/
def lower_str (s : String) : String :=
  String.mk (s.data.map Char.toLower)

/-- Identifier-continuation test (`tokenizer.rs` line 159):
`c.is_alphabetic() || c.is_digit(10) || c == '_'`. -/
def ident_cont (c : Char) : Bool :=
  c.isAlpha || c.isDigit || c = '_'

/-- Prepends token `t` to a successful tail tokenization (`tokens.push`
in the `tokenize` loop); errors and panics propagate. -/
def consTok (t : Token) : LexResult → LexResult
  | .ok ts => .ok (t :: ts)
  | r => r

/-- Effect of one iteration of the `tokenize` loop: skip whitespace,
emit one token, fail, or panic. -/
inductive ScanStep where
  | skip (rest : List Char)
  | emit (t : Token) (rest : List Char)
  | fail (e : TokenizerError)
  | panicStep
deriving DecidableEq, Repr

/-- One iteration of the main scanning loop of `Tokenizer::tokenize`
(`tokenizer.rs` lines 47-198): classify the peeked character `c` (the
remaining input is `c :: rest`) and consume the characters of one token.
The arms appear in the source's order. -/
def scan1 (c : Char) (rest : List Char) : ScanStep :=
  if c = ' ' ∨ c = '\t' ∨ c = '\n' then .skip rest
  else if c = '(' then .emit .LeftParentheses rest
  else if c = ')' then .emit .RightParentheses rest
  else if c = ',' then .emit .Comma rest
  else if c = ';' then .emit .Semicolon rest
  else if c = '+' then .emit .Plus rest
  else if c = '-' then .emit .Minus rest
  else if c = '*' then .emit .Star rest
  else if c = '/' then .emit .Divide rest
  else if c = '=' then .emit .Equal rest
  else if c = '>' then
    match rest with
    | '=' :: rest' => .emit .GreaterThanOrEqual rest'
    | _ => .emit .GreaterThan rest
  else if c = '<' then
    match rest with
    | '=' :: rest' => .emit .LessThanOrEqual rest'
    | _ => .emit .LessThan rest
  else if c = '!' then
    match rest with
    | '=' :: rest' => .emit .NotEqual rest'
    | _ => .fail (.UnexpectedChar '!')
  else if c = '"' ∨ c = '\'' then
    match read_string_body c rest with
    | none => .fail .UnterminatedString
    | some (content, rem) =>
      if rem = [] ∧ content = [] then .fail .UnterminatedString
      else .emit (.String (String.mk content)) rem
  else if c.isDigit then
    match parse_u64 ((c :: rest).takeWhile Char.isDigit) with
    | some n => .emit (.Number n) ((c :: rest).dropWhile Char.isDigit)
    | none => .panicStep
  else if c.isAlpha ∨ c = '_' then
    match keyword_of (lower_str (String.mk ((c :: rest).takeWhile ident_cont))) with
    | some kw => .emit (.Keyword kw) ((c :: rest).dropWhile ident_cont)
    | none => .emit (.Identifier (String.mk ((c :: rest).takeWhile ident_cont)))
        ((c :: rest).dropWhile ident_cont)
  else .fail (.UnexpectedChar c)

/-- The main scanning loop of `Tokenizer::tokenize` (`tokenizer.rs`
lines 43-202), one outer-loop iteration (`scan1`) per recursive call.
`fuel` bounds the recursion depth; every iteration consumes at least one
character, so `tokenize` below always supplies enough fuel and the
fuel-exhaustion branch is unreachable from it. -/
def tokAux : Nat → List Char → LexResult
  | _, [] => .ok [.Eof]
  | 0, _ :: _ => .err (.UnexpectedChar ' ')
  | fuel + 1, c :: rest =>
    match scan1 c rest with
    | .skip rest' => tokAux fuel rest'
    | .emit t rest' => consTok t (tokAux fuel rest')
    | .fail e => .err e
    | .panicStep => .panic

/-- `Tokenizer::tokenize` on a whole input string.  The fuel
`s.length + 1` is always sufficient because every loop iteration
consumes at least one character. -/
def tokenize (s : String) : LexResult :=
  tokAux (s.length + 1) s.data

/-- `BinaryOperator` from `statement.rs` lines 30-43. -/
inductive BinaryOperator where
  | Plus
  | Minus
  | Multiply
  | Divide
  | Equal
  | NotEqual
  | GreaterThan
  | GreaterThanOrEqual
  | LessThan
  | LessThanOrEqual
  | And
  | Or
deriving DecidableEq, Repr

/-- `UnaryOperator` from `statement.rs` lines 47-53. -/
inductive UnaryOperator where
  | Plus
  | Minus
  | Not
  | Asc
  | Desc
deriving DecidableEq, Repr

/-- `Expression` from `statement.rs` lines 12-26 (boxed children become
direct recursion). -/
inductive Expression where
  | Number (n : Nat)
  | String (s : String)
  | Bool (b : Bool)
  | Identifier (s : String)
  | BinaryOperation (left_operand : Expression) (operator : BinaryOperator)
      (right_operand : Expression)
  | UnaryOperation (operator : UnaryOperator) (operand : Expression)
deriving DecidableEq, Repr

/-- `DBType` from `statement.rs` lines 57-61; the `usize` Varchar length
is modelled as `Nat`. -/
inductive DBType where
  | Int
  | Bool
  | Varchar (len : Nat)
deriving DecidableEq, Repr

/-- `Constraint` from `statement.rs` lines 65-69. -/
inductive Constraint where
  | PrimaryKey
  | NotNull
  | Check (e : Expression)
deriving DecidableEq, Repr

/-- `TableColumn` from `statement.rs` lines 73-77. -/
structure TableColumn where
  column_name : String
  column_type : DBType
  constraints : List Constraint
deriving DecidableEq, Repr

/-- `Statement` from `statement.rs` lines 81-97.  The Rust fields `from`
and `r#where` are named `fromTable` and `whereClause` here because
`from` and `where` are reserved words in Lean. -/
inductive Statement where
  | Select (columns : List Expression) (fromTable : String)
      (whereClause : Option Expression) (orderby : List Expression)
  | SelectAll (fromTable : String) (whereClause : Option Expression)
      (orderby : List Expression)
  | CreateTable (table_name : String) (column_list : List TableColumn)
deriving DecidableEq, Repr

/-- `ParseError` from `parser.rs` lines 24-28. -/
inductive ParseError where
  | UnexpectedToken (t : Token)
  | InvalidVarcharLength
  | InvalidColumnType
deriving DecidableEq, Repr

/-- Result of one parsing step: the produced value together with the
tokens that remain in the `Peekable` cursor. -/
abbrev PRes (α : Type) := Except ParseError (α × List Token)

/-- `self.current_token().cloned().unwrap_or(Token::Eof)`, the pattern
used whenever the parser reports an unexpected token. -/
def current_or (ts : List Token) : Token :=
  ts.head?.getD .Eof

/-- `Parser::expect_token` (`parser.rs` lines 68-75). -/
def expect_token (expected : Token) (ts : List Token) : Except ParseError (List Token) :=
  if ts.head? = some expected then .ok ts.tail
  else .error (.UnexpectedToken (current_or ts))

/-- `Parser::parse_identifier` (`parser.rs` lines 78-86). -/
def parse_identifier (ts : List Token) : PRes String :=
  match ts.head? with
  | some (.Identifier id) => .ok (id, ts.tail)
  | _ => .error (.UnexpectedToken (current_or ts))

/-- `Parser::get_precedence` (`parser.rs` lines 89-99). -/
def get_precedence : Token → Nat
  | .Keyword .Or => 10
  | .Keyword .And => 20
  | .Equal | .NotEqual | .GreaterThan | .GreaterThanOrEqual
  | .LessThan | .LessThanOrEqual => 30
  | .Plus | .Minus => 50
  | .Star | .Divide => 60
  | _ => 0

/-- The token-to-operator correspondence of `Parser::parse_infix`
(`parser.rs` lines 162-274): the eleven success arms are identical up to
which `BinaryOperator` they build, so the arm selection is factored into
this map (`none` for the catch-all error arm). -/
def infix_op : Token → Option BinaryOperator
  | .Plus => some .Plus
  | .Minus => some .Minus
  | .Star => some .Multiply
  | .Divide => some .Divide
  | .GreaterThan => some .GreaterThan
  | .GreaterThanOrEqual => some .GreaterThanOrEqual
  | .LessThan => some .LessThan
  | .LessThanOrEqual => some .LessThanOrEqual
  | .Equal => some .Equal
  | .NotEqual => some .NotEqual
  | .Keyword .And => some .And
  | .Keyword .Or => some .Or
  | _ => none

mutual

/-- `Parser::parse_prefix` (`parser.rs` lines 102-159). -/
def parse_prefix_expr : Nat → List Token → PRes Expression
  | 0, _ => .error (.UnexpectedToken .Eof)
  | fuel + 1, ts =>
    match ts.head? with
    | some (.Number n) => .ok (.Number n, ts.tail)
    | some (.String s) => .ok (.String s, ts.tail)
    | some (.Identifier id) => .ok (.Identifier id, ts.tail)
    | some (.Keyword .True) => .ok (.Bool true, ts.tail)
    | some (.Keyword .False) => .ok (.Bool false, ts.tail)
    | some .LeftParentheses =>
      match parse_expression fuel 0 ts.tail with
      | .error e => .error e
      | .ok (e, ts₁) =>
        match expect_token .RightParentheses ts₁ with
        | .error e' => .error e'
        | .ok ts₂ => .ok (e, ts₂)
    | some .Minus =>
      match parse_expression fuel 80 ts.tail with
      | .error e => .error e
      | .ok (e, ts₁) => .ok (.UnaryOperation .Minus e, ts₁)
    | some .Plus =>
      match parse_expression fuel 80 ts.tail with
      | .error e => .error e
      | .ok (e, ts₁) => .ok (.UnaryOperation .Plus e, ts₁)
    | some (.Keyword .Not) =>
      match parse_expression fuel 80 ts.tail with
      | .error e => .error e
      | .ok (e, ts₁) => .ok (.UnaryOperation .Not e, ts₁)
    | _ => .error (.UnexpectedToken (current_or ts))

/-- `Parser::parse_infix` (`parser.rs` lines 162-274): consume the
operator token, parse the right-hand side at the supplied precedence,
and build the binary node; any non-operator token is `UnexpectedToken`. -/
def parse_infix_expr : Nat → Expression → Nat → List Token → PRes Expression
  | 0, _, _, _ => .error (.UnexpectedToken .Eof)
  | fuel + 1, left, prec, ts =>
    match infix_op (current_or ts) with
    | some op =>
      match parse_expression fuel prec ts.tail with
      | .error e => .error e
      | .ok (right, ts₁) => .ok (.BinaryOperation left op right, ts₁)
    | none => .error (.UnexpectedToken (current_or ts))

/-- The `while` loop of `Parser::parse_expression` (`parser.rs` lines
281-288): keep consuming infix operators whose precedence strictly
exceeds `prec`. -/
def expr_loop : Nat → Expression → Nat → List Token → PRes Expression
  | 0, _, _, _ => .error (.UnexpectedToken .Eof)
  | fuel + 1, left, prec, ts =>
    match ts.head? with
    | none => .ok (left, ts)
    | some t =>
      if get_precedence t ≤ prec then .ok (left, ts)
      else
        match parse_infix_expr fuel left (get_precedence t) ts with
        | .error e => .error e
        | .ok (left', ts₁) => expr_loop fuel left' prec ts₁

/-- `Parser::parse_expression` (`parser.rs` lines 277-305): a prefix
term, the infix loop, then the trailing `ASC`/`DESC` check. -/
def parse_expression : Nat → Nat → List Token → PRes Expression
  | 0, _, _ => .error (.UnexpectedToken .Eof)
  | fuel + 1, prec, ts =>
    match parse_prefix_expr fuel ts with
    | .error e => .error e
    | .ok (left, ts₁) =>
      match expr_loop fuel left prec ts₁ with
      | .error e => .error e
      | .ok (left', ts₂) =>
        match ts₂.head? with
        | some (.Keyword .Asc) => .ok (.UnaryOperation .Asc left', ts₂.tail)
        | some (.Keyword .Desc) => .ok (.UnaryOperation .Desc left', ts₂.tail)
        | _ => .ok (left', ts₂)

end

/-- The comma-separated expression-list loop that appears verbatim in
`Parser::parse_select` (lines 328-336, 360-368, 387-395): parse an
expression, push it, continue while a comma follows. -/
def parse_expr_list : Nat → List Token → PRes (List Expression)
  | 0, _ => .error (.UnexpectedToken .Eof)
  | fuel + 1, ts =>
    match parse_expression fuel 0 ts with
    | .error e => .error e
    | .ok (e, ts₁) =>
      if ts₁.head? = some .Comma then
        match parse_expr_list fuel ts₁.tail with
        | .error e' => .error e'
        | .ok (es, ts₂) => .ok (e :: es, ts₂)
      else .ok ([e], ts₁)

/-- The optional `WHERE` clause of `Parser::parse_select` (lines
316-321 and 375-380). -/
def parse_where_clause : Nat → List Token → PRes (Option Expression)
  | 0, _ => .error (.UnexpectedToken .Eof)
  | fuel + 1, ts =>
    if ts.head? = some (.Keyword .Where) then
      match parse_expression fuel 0 ts.tail with
      | .error e => .error e
      | .ok (e, ts₁) => .ok (some e, ts₁)
    else .ok (none, ts)

/-- The optional `ORDER BY` clause of `Parser::parse_select` (lines
324-337 and 383-396). -/
def parse_orderby_clause : Nat → List Token → PRes (List Expression)
  | 0, _ => .error (.UnexpectedToken .Eof)
  | fuel + 1, ts =>
    if ts.head? = some (.Keyword .Order) then
      match expect_token (.Keyword .By) ts.tail with
      | .error e => .error e
      | .ok ts₁ => parse_expr_list fuel ts₁
    else .ok ([], ts)

/-- `Parser::parse_select` (`parser.rs` lines 308-411), entered after
the `SELECT` keyword has been consumed. -/
def parse_select : Nat → List Token → PRes Statement
  | 0, _ => .error (.UnexpectedToken .Eof)
  | fuel + 1, ts =>
    if ts.head? = some .Star then
      match expect_token (.Keyword .From) ts.tail with
      | .error e => .error e
      | .ok ts₁ =>
        match parse_identifier ts₁ with
        | .error e => .error e
        | .ok (fromName, ts₂) =>
          match parse_where_clause fuel ts₂ with
          | .error e => .error e
          | .ok (wh, ts₃) =>
            match parse_orderby_clause fuel ts₃ with
            | .error e => .error e
            | .ok (ob, ts₄) =>
              if ts₄.head? = some .Semicolon then
                .ok (.SelectAll fromName wh ob, ts₄.tail)
              else .error (.UnexpectedToken (current_or ts₄))
    else if ts.head? = some (.Keyword .From) then
      .error (.UnexpectedToken (.Keyword .From))
    else
      match parse_expr_list fuel ts with
      | .error e => .error e
      | .ok (columns, ts₁) =>
        match expect_token (.Keyword .From) ts₁ with
        | .error e => .error e
        | .ok ts₂ =>
          match parse_identifier ts₂ with
          | .error e => .error e
          | .ok (fromName, ts₃) =>
            match parse_where_clause fuel ts₃ with
            | .error e => .error e
            | .ok (wh, ts₄) =>
              match parse_orderby_clause fuel ts₄ with
              | .error e => .error e
              | .ok (ob, ts₅) =>
                if ts₅.head? = some .Semicolon then
                  .ok (.Select columns fromName wh ob, ts₅.tail)
                else .error (.UnexpectedToken (current_or ts₅))

/-- The column-type match of `Parser::parse_create_table` (`parser.rs`
lines 425-453), including the `VARCHAR` length validation. -/
def parse_column_type (ts : List Token) : PRes DBType :=
  match ts.head? with
  | some (.Keyword .Int) => .ok (.Int, ts.tail)
  | some (.Keyword .Bool) => .ok (.Bool, ts.tail)
  | some (.Keyword .Varchar) =>
    match expect_token .LeftParentheses ts.tail with
    | .error e => .error e
    | .ok ts₁ =>
      match ts₁.head? with
      | some (.Number len) =>
        if len = 0 ∨ len > 65535 then .error .InvalidVarcharLength
        else
          match expect_token .RightParentheses ts₁.tail with
          | .error e => .error e
          | .ok ts₂ => .ok (.Varchar len, ts₂)
      | _ => .error (.UnexpectedToken (current_or ts₁))
  | _ => .error .InvalidColumnType

/-- The constraint loop of `Parser::parse_create_table` (`parser.rs`
lines 456-478): greedily consume `PRIMARY KEY`, `NOT NULL`, and
`CHECK ( expr )`, stopping at the first other token (or end of input). -/
def parse_constraints : Nat → List Token → PRes (List Constraint)
  | 0, _ => .error (.UnexpectedToken .Eof)
  | fuel + 1, ts =>
    match ts.head? with
    | some (.Keyword .Primary) =>
      match expect_token (.Keyword .Key) ts.tail with
      | .error e => .error e
      | .ok ts₁ =>
        match parse_constraints fuel ts₁ with
        | .error e => .error e
        | .ok (cs, ts₂) => .ok (.PrimaryKey :: cs, ts₂)
    | some (.Keyword .Not) =>
      match expect_token (.Keyword .Null) ts.tail with
      | .error e => .error e
      | .ok ts₁ =>
        match parse_constraints fuel ts₁ with
        | .error e => .error e
        | .ok (cs, ts₂) => .ok (.NotNull :: cs, ts₂)
    | some (.Keyword .Check) =>
      match expect_token .LeftParentheses ts.tail with
      | .error e => .error e
      | .ok ts₁ =>
        match parse_expression fuel 0 ts₁ with
        | .error e => .error e
        | .ok (e, ts₂) =>
          match expect_token .RightParentheses ts₂ with
          | .error e' => .error e'
          | .ok ts₃ =>
            match parse_constraints fuel ts₃ with
            | .error e' => .error e'
            | .ok (cs, ts₄) => .ok (.Check e :: cs, ts₄)
    | _ => .ok ([], ts)

/-- The column-definition loop of `Parser::parse_create_table`
(`parser.rs` lines 420-493): name, type, constraints, then continue
while a comma follows. -/
def parse_column_defs : Nat → List Token → PRes (List TableColumn)
  | 0, _ => .error (.UnexpectedToken .Eof)
  | fuel + 1, ts =>
    match parse_identifier ts with
    | .error e => .error e
    | .ok (colName, ts₁) =>
      match parse_column_type ts₁ with
      | .error e => .error e
      | .ok (ty, ts₂) =>
        match parse_constraints fuel ts₂ with
        | .error e => .error e
        | .ok (cons, ts₃) =>
          if ts₃.head? = some .Comma then
            match parse_column_defs fuel ts₃.tail with
            | .error e => .error e
            | .ok (cols, ts₄) => .ok (⟨colName, ty, cons⟩ :: cols, ts₄)
          else .ok ([⟨colName, ty, cons⟩], ts₃)

/-- `Parser::parse_create_table` (`parser.rs` lines 414-507), entered
after the `CREATE` keyword has been consumed. -/
def parse_create_table : Nat → List Token → PRes Statement
  | 0, _ => .error (.UnexpectedToken .Eof)
  | fuel + 1, ts =>
    match expect_token (.Keyword .Table) ts with
    | .error e => .error e
    | .ok ts₁ =>
      match parse_identifier ts₁ with
      | .error e => .error e
      | .ok (tableName, ts₂) =>
        match expect_token .LeftParentheses ts₂ with
        | .error e => .error e
        | .ok ts₃ =>
          match parse_column_defs fuel ts₃ with
          | .error e => .error e
          | .ok (cols, ts₄) =>
            match expect_token .RightParentheses ts₄ with
            | .error e => .error e
            | .ok ts₅ =>
              if ts₅.head? = some .Semicolon then
                .ok (.CreateTable tableName cols, ts₅.tail)
              else .error (.UnexpectedToken (current_or ts₅))

/-- `Parser::parse` (`parser.rs` lines 510-522): dispatch on the first
token. -/
def parse : Nat → List Token → PRes Statement
  | 0, _ => .error (.UnexpectedToken .Eof)
  | fuel + 1, ts =>
    match ts.head? with
    | some (.Keyword .Select) => parse_select fuel ts.tail
    | some (.Keyword .Create) => parse_create_table fuel ts.tail
    | _ => .error (.UnexpectedToken (current_or ts))

/-- `Parser::parse` run on a materialized token vector; the fuel
`8 * ts.length + 16` always dominates the recursion depth, which grows
only when tokens are consumed. -/
def run_parse (ts : List Token) : Except ParseError Statement :=
  (parse (8 * ts.length + 16) ts).map Prod.fst

/-- `Parser::parse_expression(0)` run on a token vector, the entry point
the statement parser uses for every expression position. -/
def run_expr (ts : List Token) : PRes Expression :=
  parse_expression (8 * ts.length + 16) 0 ts

deriving instance DecidableEq for Except

/-- The observable outcome of `Parser::new(input)` followed by
`parse()`: either a returned `Result` or a panic propagated out of
`tokenize`. -/
inductive RunResult where
  | res (r : Except ParseError Statement)
  | panicked
deriving DecidableEq, Repr

/-- `Parser::new` (`parser.rs` lines 48-55) followed by `Parser::parse`:
tokenize the input, substituting the token list `[Eof]` when the
tokenizer reports an error (`unwrap_or_else(|_| vec![Token::Eof])`),
then parse. -/
def parse_input (s : String) : RunResult :=
  match tokenize s with
  | .panic => .panicked
  | .err _ => .res (run_parse [Token.Eof])
  | .ok ts => .res (run_parse ts)

theorem scan1_emit_ne_eof {c : Char} {rest : List Char} {t : Token} {rest' : List Char}
    (h : scan1 c rest = .emit t rest') : t ≠ .Eof := by
  delta scan1 at h
  by_cases h1 : c = ' ' ∨ c = '\t' ∨ c = '\n'
  · rw [if_pos h1] at h; exact ScanStep.noConfusion h
  rw [if_neg h1] at h
  by_cases h2 : c = '('
  · rw [if_pos h2] at h; injection h with ht hr; subst ht; decide
  rw [if_neg h2] at h
  by_cases h3 : c = ')'
  · rw [if_pos h3] at h; injection h with ht hr; subst ht; decide
  rw [if_neg h3] at h
  by_cases h4 : c = ','
  · rw [if_pos h4] at h; injection h with ht hr; subst ht; decide
  rw [if_neg h4] at h
  by_cases h5 : c = ';'
  · rw [if_pos h5] at h; injection h with ht hr; subst ht; decide
  rw [if_neg h5] at h
  by_cases h6 : c = '+'
  · rw [if_pos h6] at h; injection h with ht hr; subst ht; decide
  rw [if_neg h6] at h
  by_cases h7 : c = '-'
  · rw [if_pos h7] at h; injection h with ht hr; subst ht; decide
  rw [if_neg h7] at h
  by_cases h8 : c = '*'
  · rw [if_pos h8] at h; injection h with ht hr; subst ht; decide
  rw [if_neg h8] at h
  by_cases h9 : c = '/'
  · rw [if_pos h9] at h; injection h with ht hr; subst ht; decide
  rw [if_neg h9] at h
  by_cases h10 : c = '='
  · rw [if_pos h10] at h; injection h with ht hr; subst ht; decide
  rw [if_neg h10] at h
  by_cases h11 : c = '>'
  · rw [if_pos h11] at h
    rcases rest with _ | ⟨r0, rest0⟩
    · injection h with ht hr; subst ht; decide
    · split at h <;> (injection h with ht hr; subst ht; decide)
  rw [if_neg h11] at h
  by_cases h12 : c = '<'
  · rw [if_pos h12] at h
    rcases rest with _ | ⟨r0, rest0⟩
    · injection h with ht hr; subst ht; decide
    · split at h <;> (injection h with ht hr; subst ht; decide)
  rw [if_neg h12] at h
  by_cases h13 : c = '!'
  · rw [if_pos h13] at h
    rcases rest with _ | ⟨r0, rest0⟩
    · exact ScanStep.noConfusion h
    · split at h
      · injection h with ht hr; subst ht; decide
      · exact ScanStep.noConfusion h
  rw [if_neg h13] at h
  by_cases h14 : c = '"' ∨ c = '\''
  · rw [if_pos h14] at h
    rcases hrs : read_string_body c rest with _ | ⟨content, rem⟩
    · rw [hrs] at h; exact ScanStep.noConfusion h
    · simp only [hrs] at h
      split at h
      · exact ScanStep.noConfusion h
      · injection h with ht hr; subst ht; simp
  rw [if_neg h14] at h
  by_cases h15 : c.isDigit = true
  · rw [if_pos h15] at h
    rcases hn : parse_u64 ((c :: rest).takeWhile Char.isDigit) with _ | n
    · rw [hn] at h; exact ScanStep.noConfusion h
    · rw [hn] at h; injection h with ht hr; subst ht; simp
  rw [if_neg h15] at h
  by_cases h16 : c.isAlpha = true ∨ c = '_'
  · rw [if_pos h16] at h
    rcases hk : keyword_of (lower_str (String.mk ((c :: rest).takeWhile ident_cont))) with _ | kw
    · rw [hk] at h; injection h with ht hr; subst ht; simp
    · rw [hk] at h; injection h with ht hr; subst ht; simp
  rw [if_neg h16] at h
  exact ScanStep.noConfusion h

theorem consTok_ok_inv {t : Token} {r : LexResult} {ts : List Token}
    (h : consTok t r = .ok ts) : ∃ ts₀, r = .ok ts₀ ∧ ts = t :: ts₀ := by
  cases r with
  | ok ts₀ => exact ⟨ts₀, rfl, by simpa [consTok] using h.symm⟩
  | err e => simp [consTok] at h
  | panic => simp [consTok] at h

theorem tokAux_ends_eof (fuel : Nat) : ∀ (cs : List Char) (ts : List Token),
    tokAux fuel cs = .ok ts → ∃ ts', ts = ts' ++ [Token.Eof] ∧ Token.Eof ∉ ts' := by
  induction fuel with
  | zero =>
    intro cs ts h
    cases cs with
    | nil => injection h with h'; exact ⟨[], h'.symm, by simp⟩
    | cons c rest => exact absurd h (by simp [tokAux])
  | succ fuel ih =>
    intro cs ts h
    cases cs with
    | nil => injection h with h'; exact ⟨[], h'.symm, by simp⟩
    | cons c rest =>
      simp only [tokAux] at h
      split at h
      · exact ih _ _ h
      · next t rest' hs =>
        obtain ⟨ts₀, h₀, rfl⟩ := consTok_ok_inv h
        obtain ⟨ts', rfl, hne⟩ := ih _ _ h₀
        refine ⟨t :: ts', by simp, ?_⟩
        simp only [List.mem_cons, not_or]
        exact ⟨fun h' => scan1_emit_ne_eof hs h'.symm, hne⟩
      · exact absurd h (by simp)
      · exact absurd h (by simp)

/-- The string-literal loop consumes the whole remaining input, ending
with an empty remainder, whenever no closing quote and no backslash
occurs in it. -/
theorem read_string_body_no_quote (q : Char) :
    ∀ (cs : List Char), q ∉ cs → '\\' ∉ cs →
      read_string_body q cs = some (cs, []) := by
  intro cs
  induction cs with
  | nil => intro _ _; rfl
  | cons c cs ih =>
    intro hq hb
    have hcq : ¬ c = q := by
      intro h; exact hq (h ▸ List.mem_cons_self c cs)
    have hcb : ¬ c = '\\' := by
      intro h; exact hb (h ▸ List.mem_cons_self c cs)
    have hq' : q ∉ cs := fun h => hq (List.mem_cons_of_mem _ h)
    have hb' : '\\' ∉ cs := fun h => hb (List.mem_cons_of_mem _ h)
    rw [read_string_body.eq_def]
    simp only [if_neg hcq, if_neg hcb, ih hq' hb']

/-- `scan1` on an opening single quote: the string-literal branch of the
scanner. -/
theorem scan1_quote (rest : List Char) :
    scan1 '\'' rest =
      match read_string_body '\'' rest with
      | none => .fail .UnterminatedString
      | some (content, rem) =>
        if rem = [] ∧ content = [] then .fail .UnterminatedString
        else .emit (.String (String.mk content)) rem := rfl

/-- `scan1` on a decimal digit: the number branch of the scanner. -/
theorem scan1_digit {c : Char} (hc : c.isDigit = true) (rest : List Char) :
    scan1 c rest =
      match parse_u64 ((c :: rest).takeWhile Char.isDigit) with
      | some n => .emit (.Number n) ((c :: rest).dropWhile Char.isDigit)
      | none => .panicStep := by
  have h1 : ¬(c = ' ' ∨ c = '\t' ∨ c = '\n') := by
    rintro (rfl | rfl | rfl) <;> exact absurd hc (by decide)
  have h2 : ¬ c = '(' := by rintro rfl; exact absurd hc (by decide)
  have h3 : ¬ c = ')' := by rintro rfl; exact absurd hc (by decide)
  have h4 : ¬ c = ',' := by rintro rfl; exact absurd hc (by decide)
  have h5 : ¬ c = ';' := by rintro rfl; exact absurd hc (by decide)
  have h6 : ¬ c = '+' := by rintro rfl; exact absurd hc (by decide)
  have h7 : ¬ c = '-' := by rintro rfl; exact absurd hc (by decide)
  have h8 : ¬ c = '*' := by rintro rfl; exact absurd hc (by decide)
  have h9 : ¬ c = '/' := by rintro rfl; exact absurd hc (by decide)
  have h10 : ¬ c = '=' := by rintro rfl; exact absurd hc (by decide)
  have h11 : ¬ c = '>' := by rintro rfl; exact absurd hc (by decide)
  have h12 : ¬ c = '<' := by rintro rfl; exact absurd hc (by decide)
  have h13 : ¬ c = '!' := by rintro rfl; exact absurd hc (by decide)
  have h14 : ¬(c = '"' ∨ c = '\'') := by
    rintro (rfl | rfl) <;> exact absurd hc (by decide)
  delta scan1
  rw [if_neg h1, if_neg h2, if_neg h3, if_neg h4, if_neg h5, if_neg h6,
    if_neg h7, if_neg h8, if_neg h9, if_neg h10, if_neg h11, if_neg h12,
    if_neg h13, if_neg h14, if_pos hc]

/-- C8: for every input on which `tokenize` succeeds, the returned token
sequence contains exactly one end-of-input marker, and it is the final
element (so no token follows it). -/
theorem c8_token_stream_single_eof (s : String) (ts : List Token)
    (h : tokenize s = .ok ts) :
    ts.count .Eof = 1 ∧ ts.getLast? = some .Eof := by
  obtain ⟨ts', rfl, hne⟩ := tokAux_ends_eof _ _ _ h
  constructor
  · rw [List.count_append, List.count_eq_zero.mpr hne]
    decide
  · rw [List.getLast?_append_of_ne_nil ts' (by simp)]
    decide

/-- C8 witness: the theorem applied to the concrete input `"1;"`. -/
theorem c8_witness :
    tokenize "1;" = .ok [.Number 1, .Semicolon, .Eof] ∧
      ([Token.Number 1, .Semicolon, .Eof].count .Eof = 1 ∧
        [Token.Number 1, .Semicolon, .Eof].getLast? = some .Eof) :=
  ⟨by decide, c8_token_stream_single_eof "1;" _ (by decide)⟩

/-- C10: on the input consisting exactly of a properly closed empty
string literal (`''`), `tokenize` returns `UnterminatedString`, because
the check at `tokenizer.rs` line 138 only tests that the literal is
empty and the input is exhausted; the same literal followed by a space
is accepted as an empty `String` token. -/
theorem c10_empty_literal_at_end_unterminated :
    tokenize "''" = .err .UnterminatedString ∧
      tokenize "'' " = .ok [.String "", .Eof] := by
  exact ⟨by decide, by decide⟩

/-- C5 counterexample: the input `'abc` opens a quote that is never
closed, yet `tokenize` succeeds with a `String` token instead of
failing with `UnterminatedString`. -/
theorem c5_counterexample :
    tokenize "'abc" = .ok [.String "abc", .Eof] := by decide

/-- C5 (amended): for an input consisting of an opening single quote
followed by characters containing no quote and no backslash, `tokenize`
reports `UnterminatedString` only when the unterminated literal is
empty; a nonempty unterminated literal is silently accepted as a
`String` token covering the rest of the input. -/
theorem c5_unterminated_only_when_empty (cs : List Char)
    (hq : '\'' ∉ cs) (hb : '\\' ∉ cs) :
    tokenize (String.mk ('\'' :: cs)) =
      if cs = [] then .err .UnterminatedString
      else .ok [.String (String.mk cs), .Eof] := by
  have h0 : tokenize (String.mk ('\'' :: cs)) = tokAux (cs.length + 1 + 1) ('\'' :: cs) := rfl
  rw [h0]
  simp only [tokAux, scan1_quote, read_string_body_no_quote '\'' cs hq hb]
  rcases cs with _ | ⟨c, cs'⟩
  · rfl
  · simp [consTok, tokAux]

/-- C5 witness: the theorem applied to the concrete literal body
`abc`. -/
theorem c5_witness :
    ('\'' ∉ ['a', 'b', 'c'] ∧ '\\' ∉ ['a', 'b', 'c']) ∧
      tokenize (String.mk ('\'' :: ['a', 'b', 'c'])) =
        if (['a', 'b', 'c'] : List Char) = [] then .err .UnterminatedString
        else .ok [.String (String.mk ['a', 'b', 'c']), .Eof] :=
  ⟨⟨by decide, by decide⟩,
    c5_unterminated_only_when_empty ['a', 'b', 'c'] (by decide) (by decide)⟩

/-- C4 counterexample: a digit run exceeding the `u64` domain does not
produce any tokenizer error value; the `unwrap()` at `tokenizer.rs`
line 153 panics (the `TokenizerError` type has no `InvalidNumber`
variant at all). -/
theorem c4_counterexample :
    tokenize "18446744073709551616" = .panic := by decide

/-- C4 (amended): for every input that is a single maximal digit run
whose value exceeds the representable `u64` domain, `tokenize` panics
via the `unwrap()` on `str::parse::<u64>` — it neither truncates the
value nor returns an error (no `InvalidNumber` variant exists). -/
theorem c4_overflow_panics (cs : List Char) (hne : cs ≠ [])
    (hdig : ∀ c ∈ cs, c.isDigit = true) (hbig : 2 ^ 64 ≤ digits_val cs) :
    tokenize (String.mk cs) = .panic := by
  obtain ⟨c, rest, rfl⟩ := List.exists_cons_of_ne_nil hne
  have h0 : tokenize (String.mk (c :: rest)) = tokAux (rest.length + 1 + 1) (c :: rest) := rfl
  rw [h0]
  simp only [tokAux, scan1_digit (hdig c (List.mem_cons_self c rest)) rest]
  rw [List.takeWhile_eq_self_iff.mpr hdig]
  have hnone : parse_u64 (c :: rest) = none := by
    simp only [parse_u64, if_neg (not_lt.mpr hbig)]
  rw [hnone]

/-- C4 witness: the theorem applied to the twenty-digit run of nines,
whose value `10^20 - 1` exceeds `2^64 - 1`. -/
theorem c4_witness :
    (List.replicate 20 '9' ≠ [] ∧ (∀ c ∈ List.replicate 20 '9', c.isDigit = true) ∧
        2 ^ 64 ≤ digits_val (List.replicate 20 '9')) ∧
      tokenize (String.mk (List.replicate 20 '9')) = .panic :=
  ⟨⟨by decide, by decide, by decide⟩,
    c4_overflow_panics _ (by decide) (by decide) (by decide)⟩

/-- C1 counterexample: the input `!` fails the scanner with
`UnexpectedChar('!')`, yet the top-level parse reports
`UnexpectedToken(Eof)` — exactly the error reported for the empty
input, which has no lexical error at all — so the lexical error is not
surfaced (wrapped or otherwise). -/
theorem c1_counterexample :
    tokenize "!" = .err (.UnexpectedChar '!') ∧
      parse_input "!" = .res (.error (.UnexpectedToken .Eof)) ∧
      parse_input "" = .res (.error (.UnexpectedToken .Eof)) := by
  exact ⟨by decide, by decide, by decide⟩

/-- C1 (amended): whenever the scanner fails, `Parser::new` discards the
lexical error and substitutes the token list `[Eof]`, so the top-level
parse returns `UnexpectedToken(Eof)` no matter which lexical error
occurred (`ParseError` has no variant that wraps a `TokenizerError`). -/
theorem c1_lex_error_swallowed (s : String) (e : TokenizerError)
    (h : tokenize s = .err e) :
    parse_input s = .res (.error (.UnexpectedToken .Eof)) := by
  simp only [parse_input, h]
  decide

/-- C1 witness: the theorem applied to the concrete input `!`. -/
theorem c1_witness :
    tokenize "!" = .err (.UnexpectedChar '!') ∧
      parse_input "!" = .res (.error (.UnexpectedToken .Eof)) :=
  ⟨by decide, c1_lex_error_swallowed "!" (.UnexpectedChar '!') (by decide)⟩

/-- C2 counterexample: `get_precedence` assigns the comparison operators
precedence 30 (not 40), the same as `=`/`!=`, and consequently
`a = b > c` parses as `GreaterThan(Equal(a, b), c)` — the comparison
does not bind tighter than the equality. -/
theorem c2_counterexample :
    get_precedence .GreaterThan = 30 ∧
      run_expr [.Identifier "a", .Equal, .Identifier "b", .GreaterThan,
          .Identifier "c", .Eof] =
        .ok (.BinaryOperation
          (.BinaryOperation (.Identifier "a") .Equal (.Identifier "b"))
          .GreaterThan (.Identifier "c"), [.Eof]) ∧
      run_expr [.Identifier "a", .Equal, .Identifier "b", .GreaterThan,
          .Identifier "c", .Eof] ≠
        .ok (.BinaryOperation (.Identifier "a") .Equal
          (.BinaryOperation (.Identifier "b") .GreaterThan (.Identifier "c")),
          [.Eof]) := by
  exact ⟨by decide, by decide, by decide⟩

/-- C2 (amended): the binary-operator precedences are OR = 10, AND = 20,
and a single tier 30 shared by `=`, `!=`, `>`, `>=`, `<`, `<=`,
then `+`/`-` = 50 and `*`/`/` = 60; equality and comparison operators
therefore mix left-associatively: `a = b > c` parses as
`GreaterThan(Equal(a, b), c)`. -/
theorem c2_precedence_table :
    get_precedence (.Keyword .Or) = 10 ∧
      get_precedence (.Keyword .And) = 20 ∧
      get_precedence .Equal = 30 ∧
      get_precedence .NotEqual = 30 ∧
      get_precedence .GreaterThan = 30 ∧
      get_precedence .GreaterThanOrEqual = 30 ∧
      get_precedence .LessThan = 30 ∧
      get_precedence .LessThanOrEqual = 30 ∧
      get_precedence .Plus = 50 ∧
      get_precedence .Minus = 50 ∧
      get_precedence .Star = 60 ∧
      get_precedence .Divide = 60 ∧
      run_expr [.Identifier "a", .Equal, .Identifier "b", .GreaterThan,
          .Identifier "c", .Eof] =
        .ok (.BinaryOperation
          (.BinaryOperation (.Identifier "a") .Equal (.Identifier "b"))
          .GreaterThan (.Identifier "c"), [.Eof]) := by
  decide

/-- C3 counterexample: in `SELECT x FROM t ORDER BY a + b ASC;` the
`ASC` is consumed by the innermost pending `parse_expression` call, so
the ordering key parses as `Plus(a, Asc(b))`, not as the claimed
`Asc(Plus(a, b))`. -/
theorem c3_counterexample :
    parse_input "SELECT x FROM t ORDER BY a + b ASC;" =
      .res (.ok (.Select [.Identifier "x"] "t" none
        [.BinaryOperation (.Identifier "a") .Plus
          (.UnaryOperation .Asc (.Identifier "b"))])) ∧
      (Expression.BinaryOperation (.Identifier "a") .Plus
          (.UnaryOperation .Asc (.Identifier "b"))) ≠
        .UnaryOperation .Asc
          (.BinaryOperation (.Identifier "a") .Plus (.Identifier "b")) := by
  exact ⟨by decide, by decide⟩

/-- C3 (amended): an `ASC`/`DESC` keyword wraps the expression
accumulated by the innermost `parse_expression` invocation that is
active when it is reached, and that invocation returns immediately
(no further infix parsing of the wrapped node at that level).  For a
single-atom key (`ORDER BY name ASC`) this is the whole expression, as
in the spec's example; after a binary operator it is only the right
operand (`ORDER BY a + b ASC` yields `Plus(a, Asc(b))`), and an `ASC`
directly after an atom stops infix parsing (`a ASC + b` leaves `+ b`
unconsumed). -/
theorem c3_asc_desc_postfix :
    parse_input "SELECT name FROM users WHERE age > 18 ORDER BY name ASC;" =
      .res (.ok (.Select [.Identifier "name"] "users"
        (some (.BinaryOperation (.Identifier "age") .GreaterThan (.Number 18)))
        [.UnaryOperation .Asc (.Identifier "name")])) ∧
      parse_input "SELECT x FROM t ORDER BY a + b ASC;" =
        .res (.ok (.Select [.Identifier "x"] "t" none
          [.BinaryOperation (.Identifier "a") .Plus
            (.UnaryOperation .Asc (.Identifier "b"))])) ∧
      run_expr [.Identifier "a", .Keyword .Asc, .Plus, .Identifier "b", .Eof] =
        .ok (.UnaryOperation .Asc (.Identifier "a"),
          [.Plus, .Identifier "b", .Eof]) := by
  exact ⟨by decide, by decide, by decide⟩

/-- C7: equal-precedence binary operators associate left-to-right
(`1 - 2 - 3` parses as `Minus(Minus(1, 2), 3)`), and the unary-operand
precedence 80 exceeds every binary-operator precedence (every token's
`get_precedence` is below 80), so `-5 + 6` parses as
`Plus(Unary(Minus, 5), 6)` and not `Unary(Minus, Plus(5, 6))`. -/
theorem c7_left_assoc_unary_binding :
    (∀ t : Token, get_precedence t < 80) ∧
      tokenize "1 - 2 - 3" =
        .ok [.Number 1, .Minus, .Number 2, .Minus, .Number 3, .Eof] ∧
      run_expr [.Number 1, .Minus, .Number 2, .Minus, .Number 3, .Eof] =
        .ok (.BinaryOperation
          (.BinaryOperation (.Number 1) .Minus (.Number 2)) .Minus (.Number 3),
          [.Eof]) ∧
      tokenize "-5 + 6" = .ok [.Minus, .Number 5, .Plus, .Number 6, .Eof] ∧
      run_expr [.Minus, .Number 5, .Plus, .Number 6, .Eof] =
        .ok (.BinaryOperation (.UnaryOperation .Minus (.Number 5)) .Plus
          (.Number 6), [.Eof]) := by
  refine ⟨?_, by decide, by decide, by decide, by decide⟩
  intro t
  cases t with
  | Keyword k => cases k <;> decide
  | Identifier s => exact (by decide : (0 : Nat) < 80)
  | String s => exact (by decide : (0 : Nat) < 80)
  | Number n => exact (by decide : (0 : Nat) < 80)
  | Invalid c => exact (by decide : (0 : Nat) < 80)
  | _ => decide

/-- Evaluation of the create-table parse on the token form of
`CREATE TABLE t (c VARCHAR(n));`, for any fuel at least 4: the result
depends only on the `VARCHAR` length check `len == 0 || len > 65535`
(`parser.rs` line 441). -/
theorem parse_varchar_eval (fuel n : Nat) :
    parse (fuel + 4) [.Keyword .Create, .Keyword .Table, .Identifier "t",
        .LeftParentheses, .Identifier "c", .Keyword .Varchar,
        .LeftParentheses, .Number n, .RightParentheses, .RightParentheses,
        .Semicolon, .Eof] =
      if n = 0 ∨ n > 65535 then .error .InvalidVarcharLength
      else .ok (.CreateTable "t" [⟨"c", .Varchar n, []⟩], [.Eof]) := by
  by_cases hn : n = 0 ∨ n > 65535 <;>
    simp [parse, parse_create_table, parse_column_defs, parse_column_type,
      parse_constraints, expect_token, parse_identifier, current_or, hn]

/-- C6: in a `CREATE TABLE` column definition, `VARCHAR(n)` succeeds
producing `DBType.Varchar n` exactly when `1 ≤ n ≤ 65535`, and fails
with `InvalidVarcharLength` otherwise (in particular for `n = 0` and
`n = 65536`, while `n = 1` and `n = 65535` succeed). -/
theorem c6_varchar_length_bounds (n : Nat) :
    run_parse [.Keyword .Create, .Keyword .Table, .Identifier "t",
        .LeftParentheses, .Identifier "c", .Keyword .Varchar,
        .LeftParentheses, .Number n, .RightParentheses, .RightParentheses,
        .Semicolon, .Eof] =
      if 1 ≤ n ∧ n ≤ 65535 then .ok (.CreateTable "t" [⟨"c", .Varchar n, []⟩])
      else .error .InvalidVarcharLength := by
  show (parse (108 + 4) [.Keyword .Create, .Keyword .Table, .Identifier "t",
      .LeftParentheses, .Identifier "c", .Keyword .Varchar,
      .LeftParentheses, .Number n, .RightParentheses, .RightParentheses,
      .Semicolon, .Eof]).map Prod.fst = _
  rw [parse_varchar_eval 108 n]
  by_cases h : 1 ≤ n ∧ n ≤ 65535
  · rw [if_neg (by omega : ¬(n = 0 ∨ n > 65535)), if_pos h]; rfl
  · rw [if_pos (by omega : n = 0 ∨ n > 65535), if_neg h]; rfl

theorem list_head?_ne_nil {α} {ts : List α} {t : α} (h : ts.head? = some t) :
    ts ≠ [] := by
  cases ts with
  | nil => simp at h
  | cons a l => simp

theorem list_head?_append {α} {ts ex : List α} {t : α} (h : ts.head? = some t) :
    (ts ++ ex).head? = some t := by
  cases ts with
  | nil => simp at h
  | cons a l => simpa using h

theorem list_tail_append {α} {ts : List α} (ex : List α) (h : ts ≠ []) :
    (ts ++ ex).tail = ts.tail ++ ex := by
  cases ts with
  | nil => exact absurd rfl h
  | cons a l => simp

theorem list_tail_length_le {α} (ts : List α) : ts.tail.length ≤ ts.length := by
  cases ts <;> simp

theorem parse_prefix_expr_nil (fuel : Nat) :
    parse_prefix_expr fuel [] = .error (.UnexpectedToken .Eof) := by
  cases fuel <;> rfl

theorem parse_expression_nil (fuel prec : Nat) :
    parse_expression fuel prec [] = .error (.UnexpectedToken .Eof) := by
  cases fuel with
  | zero => rfl
  | succ fuel => simp only [parse_expression, parse_prefix_expr_nil]

theorem parse_expr_list_nil (fuel : Nat) :
    parse_expr_list fuel [] = .error (.UnexpectedToken .Eof) := by
  cases fuel with
  | zero => rfl
  | succ fuel => simp only [parse_expr_list, parse_expression_nil]

theorem expect_token_len {t : Token} {ts rem : List Token}
    (h : expect_token t ts = .ok rem) : rem.length ≤ ts.length := by
  simp only [expect_token] at h
  split at h
  · cases h; exact list_tail_length_le ts
  · cases h

theorem expect_token_head {t : Token} {ts rem : List Token}
    (h : expect_token t ts = .ok rem) : ts.head? = some t := by
  simp only [expect_token] at h
  split at h
  · assumption
  · cases h

theorem expect_token_ext {t : Token} {ts rem : List Token} (ex : List Token)
    (h : expect_token t ts = .ok rem) :
    expect_token t (ts ++ ex) = .ok (rem ++ ex) := by
  have hh := expect_token_head h
  have hne := list_head?_ne_nil hh
  simp only [expect_token] at h ⊢
  rw [if_pos hh] at h
  cases h
  rw [if_pos (list_head?_append hh), list_tail_append ex hne]

theorem parse_identifier_len {ts : List Token} {v : String} {rem : List Token}
    (h : parse_identifier ts = .ok (v, rem)) : rem.length ≤ ts.length := by
  simp only [parse_identifier] at h
  split at h
  · simp only [Except.ok.injEq, Prod.mk.injEq] at h
    rw [← h.2]
    exact list_tail_length_le ts
  · cases h

theorem parse_identifier_ext {ts : List Token} {v : String} {rem : List Token}
    (ex : List Token) (h : parse_identifier ts = .ok (v, rem)) :
    parse_identifier (ts ++ ex) = .ok (v, rem ++ ex) := by
  simp only [parse_identifier] at h ⊢
  split at h
  · next id hh =>
    simp only [Except.ok.injEq, Prod.mk.injEq] at h
    obtain ⟨rfl, rfl⟩ := h
    rw [list_head?_append hh, list_tail_append ex (list_head?_ne_nil hh)]
  · cases h

theorem parse_column_type_len {ts : List Token} {v : DBType} {rem : List Token}
    (h : parse_column_type ts = .ok (v, rem)) : rem.length ≤ ts.length := by
  simp only [parse_column_type] at h
  split at h
  · simp only [Except.ok.injEq, Prod.mk.injEq] at h
    rw [← h.2]; exact list_tail_length_le ts
  · simp only [Except.ok.injEq, Prod.mk.injEq] at h
    rw [← h.2]; exact list_tail_length_le ts
  · split at h
    · cases h
    · next ts₁ hexp =>
      split at h
      · next len hh1 =>
        split at h
        · cases h
        · split at h
          · cases h
          · next ts₂ hexp2 =>
            simp only [Except.ok.injEq, Prod.mk.injEq] at h
            rw [← h.2]
            have l1 := expect_token_len hexp
            have l2 := expect_token_len hexp2
            have l3 := list_tail_length_le ts
            have l4 := list_tail_length_le ts₁
            omega
      · cases h
  · cases h

theorem parse_column_type_ext {ts : List Token} {v : DBType} {rem : List Token}
    (ex : List Token) (h : parse_column_type ts = .ok (v, rem)) :
    parse_column_type (ts ++ ex) = .ok (v, rem ++ ex) := by
  simp only [parse_column_type] at h
  split at h
  · next hh =>
    simp only [Except.ok.injEq, Prod.mk.injEq] at h
    obtain ⟨rfl, rfl⟩ := h
    simp only [parse_column_type, list_head?_append hh,
      list_tail_append ex (list_head?_ne_nil hh)]
  · next hh =>
    simp only [Except.ok.injEq, Prod.mk.injEq] at h
    obtain ⟨rfl, rfl⟩ := h
    simp only [parse_column_type, list_head?_append hh,
      list_tail_append ex (list_head?_ne_nil hh)]
  · next hh =>
    split at h
    · cases h
    · next ts₁ hexp =>
      split at h
      · next len hh1 =>
        split at h
        · cases h
        · next hlen =>
          split at h
          · cases h
          · next ts₂ hexp2 =>
            simp only [Except.ok.injEq, Prod.mk.injEq] at h
            obtain ⟨rfl, rfl⟩ := h
            simp only [parse_column_type, list_head?_append hh,
              list_tail_append ex (list_head?_ne_nil hh),
              expect_token_ext ex hexp, list_head?_append hh1, if_neg hlen,
              list_tail_append ex (list_head?_ne_nil hh1),
              expect_token_ext ex hexp2]
      · cases h
  · cases h

theorem expr_len (fuel : Nat) :
    (∀ ts v rem, parse_prefix_expr fuel ts = .ok (v, rem) →
      rem.length ≤ ts.length) ∧
    (∀ left prec ts v rem, parse_infix_expr fuel left prec ts = .ok (v, rem) →
      rem.length ≤ ts.length) ∧
    (∀ left prec ts v rem, expr_loop fuel left prec ts = .ok (v, rem) →
      rem.length ≤ ts.length) ∧
    (∀ prec ts v rem, parse_expression fuel prec ts = .ok (v, rem) →
      rem.length ≤ ts.length) := by
  induction fuel with
  | zero =>
    exact ⟨fun ts v rem h => absurd h (by simp [parse_prefix_expr]),
      fun l p ts v rem h => absurd h (by simp [parse_infix_expr]),
      fun l p ts v rem h => absurd h (by simp [expr_loop]),
      fun p ts v rem h => absurd h (by simp [parse_expression])⟩
  | succ fuel ih =>
    obtain ⟨ihp, ihi, ihl, ihe⟩ := ih
    refine ⟨?_, ?_, ?_, ?_⟩
    · intro ts v rem h
      simp only [parse_prefix_expr] at h
      split at h
      · simp only [Except.ok.injEq, Prod.mk.injEq] at h
        obtain ⟨rfl, rfl⟩ := h; exact list_tail_length_le ts
      · simp only [Except.ok.injEq, Prod.mk.injEq] at h
        obtain ⟨rfl, rfl⟩ := h; exact list_tail_length_le ts
      · simp only [Except.ok.injEq, Prod.mk.injEq] at h
        obtain ⟨rfl, rfl⟩ := h; exact list_tail_length_le ts
      · simp only [Except.ok.injEq, Prod.mk.injEq] at h
        obtain ⟨rfl, rfl⟩ := h; exact list_tail_length_le ts
      · simp only [Except.ok.injEq, Prod.mk.injEq] at h
        obtain ⟨rfl, rfl⟩ := h; exact list_tail_length_le ts
      · split at h
        · cases h
        · next e ts₁ hpe =>
          split at h
          · cases h
          · next ts₂ hexp =>
            simp only [Except.ok.injEq, Prod.mk.injEq] at h
            obtain ⟨rfl, rfl⟩ := h
            have l1 := ihe 0 ts.tail e ts₁ hpe
            have l2 := expect_token_len hexp
            have l3 := list_tail_length_le ts
            omega
      · split at h
        · cases h
        · next e ts₁ hpe =>
          simp only [Except.ok.injEq, Prod.mk.injEq] at h
          obtain ⟨rfl, rfl⟩ := h
          have l1 := ihe 80 ts.tail e ts₁ hpe
          have l2 := list_tail_length_le ts
          omega
      · split at h
        · cases h
        · next e ts₁ hpe =>
          simp only [Except.ok.injEq, Prod.mk.injEq] at h
          obtain ⟨rfl, rfl⟩ := h
          have l1 := ihe 80 ts.tail e ts₁ hpe
          have l2 := list_tail_length_le ts
          omega
      · split at h
        · cases h
        · next e ts₁ hpe =>
          simp only [Except.ok.injEq, Prod.mk.injEq] at h
          obtain ⟨rfl, rfl⟩ := h
          have l1 := ihe 80 ts.tail e ts₁ hpe
          have l2 := list_tail_length_le ts
          omega
      · cases h
    · intro left prec ts v rem h
      simp only [parse_infix_expr] at h
      split at h
      · next op hop =>
        split at h
        · cases h
        · next r ts₁ hpe =>
          simp only [Except.ok.injEq, Prod.mk.injEq] at h
          obtain ⟨rfl, rfl⟩ := h
          have l1 := ihe prec ts.tail r ts₁ hpe
          have l2 := list_tail_length_le ts
          omega
      · cases h
    · intro left prec ts v rem h
      simp only [expr_loop] at h
      split at h
      · simp only [Except.ok.injEq, Prod.mk.injEq] at h
        obtain ⟨rfl, rfl⟩ := h; exact le_rfl
      · next t ht =>
        split at h
        · simp only [Except.ok.injEq, Prod.mk.injEq] at h
          obtain ⟨rfl, rfl⟩ := h; exact le_rfl
        · split at h
          · cases h
          · next left' ts₁ hpi =>
            have l1 := ihl left' prec ts₁ v rem h
            have l2 := ihi left (get_precedence t) ts left' ts₁ hpi
            omega
    · intro prec ts v rem h
      simp only [parse_expression] at h
      split at h
      · cases h
      · next left ts₁ hpp =>
        split at h
        · cases h
        · next left' ts₂ hloop =>
          have l1 := ihp ts left ts₁ hpp
          have l2 := ihl left prec ts₁ left' ts₂ hloop
          split at h
          · simp only [Except.ok.injEq, Prod.mk.injEq] at h
            obtain ⟨rfl, rfl⟩ := h
            have l3 := list_tail_length_le ts₂
            omega
          · simp only [Except.ok.injEq, Prod.mk.injEq] at h
            obtain ⟨rfl, rfl⟩ := h
            have l3 := list_tail_length_le ts₂
            omega
          · simp only [Except.ok.injEq, Prod.mk.injEq] at h
            obtain ⟨rfl, rfl⟩ := h
            omega

theorem current_or_append {ts : List Token} (ex : List Token) (h : ts ≠ []) :
    current_or (ts ++ ex) = current_or ts := by
  cases ts with
  | nil => exact absurd rfl h
  | cons a l => simp [current_or]

theorem list_head?_append_eq {α} {ts : List α} (ex : List α) (h : ts ≠ []) :
    (ts ++ ex).head? = ts.head? := by
  cases ts with
  | nil => exact absurd rfl h
  | cons a l => simp

theorem ne_nil_of_len_le {α β} {rem : List α} {ts : List β}
    (h : rem.length ≤ ts.length) (hrem : rem ≠ []) : ts ≠ [] := by
  intro hnil
  subst hnil
  apply hrem
  cases rem with
  | nil => rfl
  | cons a l => simp at h

theorem expr_ext (fuel : Nat) :
    (∀ ts v rem ex, parse_prefix_expr fuel ts = .ok (v, rem) → rem ≠ [] →
      parse_prefix_expr fuel (ts ++ ex) = .ok (v, rem ++ ex)) ∧
    (∀ left prec ts v rem ex,
      parse_infix_expr fuel left prec ts = .ok (v, rem) → rem ≠ [] →
      parse_infix_expr fuel left prec (ts ++ ex) = .ok (v, rem ++ ex)) ∧
    (∀ left prec ts v rem ex,
      expr_loop fuel left prec ts = .ok (v, rem) → rem ≠ [] →
      expr_loop fuel left prec (ts ++ ex) = .ok (v, rem ++ ex)) ∧
    (∀ prec ts v rem ex,
      parse_expression fuel prec ts = .ok (v, rem) → rem ≠ [] →
      parse_expression fuel prec (ts ++ ex) = .ok (v, rem ++ ex)) := by
  induction fuel with
  | zero =>
    exact ⟨fun ts v rem ex h _ => absurd h (by simp [parse_prefix_expr]),
      fun l p ts v rem ex h _ => absurd h (by simp [parse_infix_expr]),
      fun l p ts v rem ex h _ => absurd h (by simp [expr_loop]),
      fun p ts v rem ex h _ => absurd h (by simp [parse_expression])⟩
  | succ fuel ih =>
    obtain ⟨ihp, ihi, ihl, ihe⟩ := ih
    refine ⟨?_, ?_, ?_, ?_⟩
    · intro ts v rem ex h hrem
      simp only [parse_prefix_expr] at h
      split at h
      · next hh =>
        simp only [Except.ok.injEq, Prod.mk.injEq] at h
        obtain ⟨rfl, rfl⟩ := h
        simp only [parse_prefix_expr, list_head?_append hh,
          list_tail_append ex (list_head?_ne_nil hh)]
      · next hh =>
        simp only [Except.ok.injEq, Prod.mk.injEq] at h
        obtain ⟨rfl, rfl⟩ := h
        simp only [parse_prefix_expr, list_head?_append hh,
          list_tail_append ex (list_head?_ne_nil hh)]
      · next hh =>
        simp only [Except.ok.injEq, Prod.mk.injEq] at h
        obtain ⟨rfl, rfl⟩ := h
        simp only [parse_prefix_expr, list_head?_append hh,
          list_tail_append ex (list_head?_ne_nil hh)]
      · next hh =>
        simp only [Except.ok.injEq, Prod.mk.injEq] at h
        obtain ⟨rfl, rfl⟩ := h
        simp only [parse_prefix_expr, list_head?_append hh,
          list_tail_append ex (list_head?_ne_nil hh)]
      · next hh =>
        simp only [Except.ok.injEq, Prod.mk.injEq] at h
        obtain ⟨rfl, rfl⟩ := h
        simp only [parse_prefix_expr, list_head?_append hh,
          list_tail_append ex (list_head?_ne_nil hh)]
      · next hh =>
        split at h
        · cases h
        · next e ts₁ hpe =>
          split at h
          · cases h
          · next ts₂ hexp =>
            simp only [Except.ok.injEq, Prod.mk.injEq] at h
            obtain ⟨rfl, rfl⟩ := h
            have hts₁ : ts₁ ≠ [] := list_head?_ne_nil (expect_token_head hexp)
            simp only [parse_prefix_expr, list_head?_append hh,
              list_tail_append ex (list_head?_ne_nil hh),
              ihe 0 ts.tail e ts₁ ex hpe hts₁, expect_token_ext ex hexp]
      · next hh =>
        split at h
        · cases h
        · next e ts₁ hpe =>
          simp only [Except.ok.injEq, Prod.mk.injEq] at h
          obtain ⟨rfl, rfl⟩ := h
          simp only [parse_prefix_expr, list_head?_append hh,
            list_tail_append ex (list_head?_ne_nil hh),
            ihe 80 ts.tail e _ ex hpe hrem]
      · next hh =>
        split at h
        · cases h
        · next e ts₁ hpe =>
          simp only [Except.ok.injEq, Prod.mk.injEq] at h
          obtain ⟨rfl, rfl⟩ := h
          simp only [parse_prefix_expr, list_head?_append hh,
            list_tail_append ex (list_head?_ne_nil hh),
            ihe 80 ts.tail e _ ex hpe hrem]
      · next hh =>
        split at h
        · cases h
        · next e ts₁ hpe =>
          simp only [Except.ok.injEq, Prod.mk.injEq] at h
          obtain ⟨rfl, rfl⟩ := h
          simp only [parse_prefix_expr, list_head?_append hh,
            list_tail_append ex (list_head?_ne_nil hh),
            ihe 80 ts.tail e _ ex hpe hrem]
      · cases h
    · intro left prec ts v rem ex h hrem
      simp only [parse_infix_expr] at h
      split at h
      · next op hop =>
        split at h
        · cases h
        · next r ts₁ hpe =>
          simp only [Except.ok.injEq, Prod.mk.injEq] at h
          obtain ⟨rfl, rfl⟩ := h
          have hne : ts ≠ [] := by
            rintro rfl
            simp [current_or, infix_op] at hop
          simp only [parse_infix_expr, current_or_append ex hne, hop,
            list_tail_append ex hne, ihe prec ts.tail r _ ex hpe hrem]
      · cases h
    · intro left prec ts v rem ex h hrem
      simp only [expr_loop] at h
      split at h
      · next hh =>
        simp only [Except.ok.injEq, Prod.mk.injEq] at h
        obtain ⟨rfl, rfl⟩ := h
        exact absurd (List.head?_eq_none_iff.mp hh) hrem
      · next t ht =>
        split at h
        · next hle =>
          simp only [Except.ok.injEq, Prod.mk.injEq] at h
          obtain ⟨rfl, rfl⟩ := h
          simp only [expr_loop, list_head?_append ht, if_pos hle]
        · next hgt =>
          split at h
          · cases h
          · next left' ts₁ hpi =>
            have hts₁ : ts₁ ≠ [] :=
              ne_nil_of_len_le ((expr_len fuel).2.2.1 left' prec ts₁ v rem h) hrem
            simp only [expr_loop, list_head?_append ht, if_neg hgt,
              ihi left (get_precedence t) ts left' ts₁ ex hpi hts₁,
              ihl left' prec ts₁ v rem ex h hrem]
    · intro prec ts v rem ex h hrem
      simp only [parse_expression] at h
      split at h
      · cases h
      · next left ts₁ hpp =>
        split at h
        · cases h
        · next left' ts₂ hloop =>
          split at h
          · next hh =>
            simp only [Except.ok.injEq, Prod.mk.injEq] at h
            obtain ⟨rfl, rfl⟩ := h
            have hts₂ : ts₂ ≠ [] := list_head?_ne_nil hh
            have hts₁ : ts₁ ≠ [] :=
              ne_nil_of_len_le ((expr_len fuel).2.2.1 left prec ts₁ left' ts₂ hloop) hts₂
            simp only [parse_expression, ihp ts left ts₁ ex hpp hts₁,
              ihl left prec ts₁ left' ts₂ ex hloop hts₂, list_head?_append hh,
              list_tail_append ex hts₂]
          · next hh =>
            simp only [Except.ok.injEq, Prod.mk.injEq] at h
            obtain ⟨rfl, rfl⟩ := h
            have hts₂ : ts₂ ≠ [] := list_head?_ne_nil hh
            have hts₁ : ts₁ ≠ [] :=
              ne_nil_of_len_le ((expr_len fuel).2.2.1 left prec ts₁ left' ts₂ hloop) hts₂
            simp only [parse_expression, ihp ts left ts₁ ex hpp hts₁,
              ihl left prec ts₁ left' ts₂ ex hloop hts₂, list_head?_append hh,
              list_tail_append ex hts₂]
          · next hna hnd =>
            simp only [Except.ok.injEq, Prod.mk.injEq] at h
            obtain ⟨rfl, rfl⟩ := h
            have hts₂ : ts₂ ≠ [] := hrem
            have hts₁ : ts₁ ≠ [] :=
              ne_nil_of_len_le ((expr_len fuel).2.2.1 left prec ts₁ left' ts₂ hloop) hts₂
            simp only [parse_expression, ihp ts left ts₁ ex hpp hts₁,
              ihl left prec ts₁ left' ts₂ ex hloop hts₂]
            rw [list_head?_append_eq ex hts₂]
            split
            · next hg => exact absurd hg hna
            · next hg => exact absurd hg hnd
            · rfl

theorem parse_expr_list_len (fuel : Nat) :
    ∀ ts v rem, parse_expr_list fuel ts = .ok (v, rem) →
      rem.length ≤ ts.length := by
  induction fuel with
  | zero => exact fun ts v rem h => absurd h (by simp [parse_expr_list])
  | succ fuel ih =>
    intro ts v rem h
    simp only [parse_expr_list] at h
    split at h
    · cases h
    · next e ts₁ hpe =>
      have l1 := (expr_len fuel).2.2.2 0 ts e ts₁ hpe
      split at h
      · split at h
        · cases h
        · next es ts₂ hrec =>
          simp only [Except.ok.injEq, Prod.mk.injEq] at h
          obtain ⟨rfl, rfl⟩ := h
          have l2 := ih ts₁.tail es ts₂ hrec
          have l3 := list_tail_length_le ts₁
          omega
      · simp only [Except.ok.injEq, Prod.mk.injEq] at h
        obtain ⟨rfl, rfl⟩ := h
        exact l1

theorem parse_expr_list_ext (fuel : Nat) :
    ∀ ts v rem ex, parse_expr_list fuel ts = .ok (v, rem) → rem ≠ [] →
      parse_expr_list fuel (ts ++ ex) = .ok (v, rem ++ ex) := by
  induction fuel with
  | zero => exact fun ts v rem ex h _ => absurd h (by simp [parse_expr_list])
  | succ fuel ih =>
    intro ts v rem ex h hrem
    simp only [parse_expr_list] at h
    split at h
    · cases h
    · next e ts₁ hpe =>
      split at h
      · next hc =>
        split at h
        · cases h
        · next es ts₂ hrec =>
          simp only [Except.ok.injEq, Prod.mk.injEq] at h
          obtain ⟨rfl, rfl⟩ := h
          have hts₁ : ts₁ ≠ [] := list_head?_ne_nil hc
          have hc' : (ts₁ ++ ex).head? = some .Comma := list_head?_append hc
          simp only [parse_expr_list,
            (expr_ext fuel).2.2.2 0 ts e ts₁ ex hpe hts₁, hc', if_pos,
            list_tail_append ex hts₁, ih ts₁.tail es ts₂ ex hrec hrem]
      · next hnc =>
        simp only [Except.ok.injEq, Prod.mk.injEq] at h
        obtain ⟨rfl, rfl⟩ := h
        have hnc' : ¬((ts₁ ++ ex).head? = some .Comma) := by
          rw [list_head?_append_eq ex hrem]; exact hnc
        simp only [parse_expr_list,
          (expr_ext fuel).2.2.2 0 ts e ts₁ ex hpe hrem, if_neg hnc']

theorem parse_where_ext (fuel : Nat) :
    ∀ ts v rem ex, parse_where_clause fuel ts = .ok (v, rem) → rem ≠ [] →
      parse_where_clause fuel (ts ++ ex) = .ok (v, rem ++ ex) := by
  intro ts v rem ex h hrem
  cases fuel with
  | zero => exact absurd h (by simp [parse_where_clause])
  | succ fuel =>
    simp only [parse_where_clause] at h
    split at h
    · next hw =>
      split at h
      · cases h
      · next e ts₁ hpe =>
        simp only [Except.ok.injEq, Prod.mk.injEq] at h
        obtain ⟨rfl, rfl⟩ := h
        have hw' : (ts ++ ex).head? = some (.Keyword .Where) :=
          list_head?_append hw
        simp only [parse_where_clause, hw', if_pos,
          list_tail_append ex (list_head?_ne_nil hw),
          (expr_ext fuel).2.2.2 0 ts.tail e _ ex hpe hrem]
    · next hnw =>
      simp only [Except.ok.injEq, Prod.mk.injEq] at h
      obtain ⟨rfl, rfl⟩ := h
      have hnw' : ¬((ts ++ ex).head? = some (.Keyword .Where)) := by
        rw [list_head?_append_eq ex hrem]; exact hnw
      simp only [parse_where_clause, if_neg hnw']

theorem parse_orderby_len (fuel : Nat) :
    ∀ ts v rem, parse_orderby_clause fuel ts = .ok (v, rem) →
      rem.length ≤ ts.length := by
  intro ts v rem h
  cases fuel with
  | zero => exact absurd h (by simp [parse_orderby_clause])
  | succ fuel =>
    simp only [parse_orderby_clause] at h
    split at h
    · split at h
      · cases h
      · next ts₁ hexp =>
        have l1 := expect_token_len hexp
        have l2 := parse_expr_list_len fuel ts₁ v rem h
        have l3 := list_tail_length_le ts
        omega
    · simp only [Except.ok.injEq, Prod.mk.injEq] at h
      obtain ⟨rfl, rfl⟩ := h
      exact le_rfl

theorem parse_orderby_ext (fuel : Nat) :
    ∀ ts v rem ex, parse_orderby_clause fuel ts = .ok (v, rem) → rem ≠ [] →
      parse_orderby_clause fuel (ts ++ ex) = .ok (v, rem ++ ex) := by
  intro ts v rem ex h hrem
  cases fuel with
  | zero => exact absurd h (by simp [parse_orderby_clause])
  | succ fuel =>
    simp only [parse_orderby_clause] at h
    split at h
    · next ho =>
      split at h
      · cases h
      · next ts₁ hexp =>
        have ho' : (ts ++ ex).head? = some (.Keyword .Order) :=
          list_head?_append ho
        simp only [parse_orderby_clause, ho', if_pos,
          list_tail_append ex (list_head?_ne_nil ho),
          expect_token_ext ex hexp,
          parse_expr_list_ext fuel ts₁ v rem ex h hrem]
    · next hno =>
      simp only [Except.ok.injEq, Prod.mk.injEq] at h
      obtain ⟨rfl, rfl⟩ := h
      have hno' : ¬((ts ++ ex).head? = some (.Keyword .Order)) := by
        rw [list_head?_append_eq ex hrem]; exact hno
      simp only [parse_orderby_clause, if_neg hno']

theorem parse_constraints_ext (fuel : Nat) :
    ∀ ts v rem ex, parse_constraints fuel ts = .ok (v, rem) → rem ≠ [] →
      parse_constraints fuel (ts ++ ex) = .ok (v, rem ++ ex) := by
  induction fuel with
  | zero => exact fun ts v rem ex h _ => absurd h (by simp [parse_constraints])
  | succ fuel ih =>
    intro ts v rem ex h hrem
    simp only [parse_constraints] at h
    split at h
    · next hh =>
      split at h
      · cases h
      · next ts₁ hexp =>
        split at h
        · cases h
        · next cs ts₂ hrec =>
          simp only [Except.ok.injEq, Prod.mk.injEq] at h
          obtain ⟨rfl, rfl⟩ := h
          simp only [parse_constraints, list_head?_append hh,
            list_tail_append ex (list_head?_ne_nil hh),
            expect_token_ext ex hexp, ih ts₁ cs ts₂ ex hrec hrem]
    · next hh =>
      split at h
      · cases h
      · next ts₁ hexp =>
        split at h
        · cases h
        · next cs ts₂ hrec =>
          simp only [Except.ok.injEq, Prod.mk.injEq] at h
          obtain ⟨rfl, rfl⟩ := h
          simp only [parse_constraints, list_head?_append hh,
            list_tail_append ex (list_head?_ne_nil hh),
            expect_token_ext ex hexp, ih ts₁ cs ts₂ ex hrec hrem]
    · next hh =>
      split at h
      · cases h
      · next ts₁ hexp =>
        split at h
        · cases h
        · next e ts₂ hpe =>
          split at h
          · cases h
          · next ts₃ hexp2 =>
            split at h
            · cases h
            · next cs ts₄ hrec =>
              simp only [Except.ok.injEq, Prod.mk.injEq] at h
              obtain ⟨rfl, rfl⟩ := h
              have hts₂ : ts₂ ≠ [] := list_head?_ne_nil (expect_token_head hexp2)
              simp only [parse_constraints, list_head?_append hh,
                list_tail_append ex (list_head?_ne_nil hh),
                expect_token_ext ex hexp,
                (expr_ext fuel).2.2.2 0 ts₁ e ts₂ ex hpe hts₂,
                expect_token_ext ex hexp2, ih ts₃ cs ts₄ ex hrec hrem]
    · next hnp hnn hnc =>
      simp only [Except.ok.injEq, Prod.mk.injEq] at h
      obtain ⟨rfl, rfl⟩ := h
      simp only [parse_constraints]
      rw [list_head?_append_eq ex hrem]
      split
      · next hg => exact absurd hg hnp
      · next hg => exact absurd hg hnn
      · next hg => exact absurd hg hnc
      · rfl

theorem parse_column_defs_ext (fuel : Nat) :
    ∀ ts v rem ex, parse_column_defs fuel ts = .ok (v, rem) → rem ≠ [] →
      parse_column_defs fuel (ts ++ ex) = .ok (v, rem ++ ex) := by
  induction fuel with
  | zero => exact fun ts v rem ex h _ => absurd h (by simp [parse_column_defs])
  | succ fuel ih =>
    intro ts v rem ex h hrem
    simp only [parse_column_defs] at h
    split at h
    · cases h
    · next colName ts₁ hpid =>
      split at h
      · cases h
      · next ty ts₂ hcty =>
        split at h
        · cases h
        · next cons ts₃ hcons =>
          split at h
          · next hc =>
            split at h
            · cases h
            · next cols ts₄ hrec =>
              simp only [Except.ok.injEq, Prod.mk.injEq] at h
              obtain ⟨rfl, rfl⟩ := h
              have hts₃ : ts₃ ≠ [] := list_head?_ne_nil hc
              have hc' : (ts₃ ++ ex).head? = some .Comma := list_head?_append hc
              simp only [parse_column_defs, parse_identifier_ext ex hpid,
                parse_column_type_ext ex hcty,
                parse_constraints_ext fuel ts₂ cons ts₃ ex hcons hts₃,
                hc', if_pos, list_tail_append ex hts₃,
                ih ts₃.tail cols ts₄ ex hrec hrem]
          · next hnc =>
            simp only [Except.ok.injEq, Prod.mk.injEq] at h
            obtain ⟨rfl, rfl⟩ := h
            have hnc' : ¬((ts₃ ++ ex).head? = some .Comma) := by
              rw [list_head?_append_eq ex hrem]; exact hnc
            simp only [parse_column_defs, parse_identifier_ext ex hpid,
              parse_column_type_ext ex hcty,
              parse_constraints_ext fuel ts₂ cons ts₃ ex hcons hrem,
              if_neg hnc']

theorem parse_select_ext (fuel : Nat) :
    ∀ ts st rem ex, parse_select fuel ts = .ok (st, rem) →
      parse_select fuel (ts ++ ex) = .ok (st, rem ++ ex) := by
  cases fuel with
  | zero => exact fun ts st rem ex h => absurd h (by simp [parse_select])
  | succ fuel =>
    intro ts st rem ex h
    simp only [parse_select] at h
    split at h
    · next hstar =>
      split at h
      · cases h
      · next ts₁ hexp =>
        split at h
        · cases h
        · next fromName ts₂ hpid =>
          split at h
          · cases h
          · next wh ts₃ hw =>
            split at h
            · cases h
            · next ob ts₄ hob =>
              split at h
              · next hsemi =>
                simp only [Except.ok.injEq, Prod.mk.injEq] at h
                obtain ⟨rfl, rfl⟩ := h
                have hts₄ : ts₄ ≠ [] := list_head?_ne_nil hsemi
                have hts₃ : ts₃ ≠ [] :=
                  ne_nil_of_len_le (parse_orderby_len fuel ts₃ ob ts₄ hob) hts₄
                have hstar' : (ts ++ ex).head? = some .Star :=
                  list_head?_append hstar
                have hsemi' : (ts₄ ++ ex).head? = some .Semicolon :=
                  list_head?_append hsemi
                simp only [parse_select, hstar', if_pos,
                  list_tail_append ex (list_head?_ne_nil hstar),
                  expect_token_ext ex hexp, parse_identifier_ext ex hpid,
                  parse_where_ext fuel ts₂ wh ts₃ ex hw hts₃,
                  parse_orderby_ext fuel ts₃ ob ts₄ ex hob hts₄,
                  hsemi', list_tail_append ex hts₄]
              · cases h
    · next hnstar =>
      split at h
      · cases h
      · next hnfrom =>
        split at h
        · cases h
        · next columns ts₁ hcols =>
          split at h
          · cases h
          · next ts₂ hexp =>
            split at h
            · cases h
            · next fromName ts₃ hpid =>
              split at h
              · cases h
              · next wh ts₄ hw =>
                split at h
                · cases h
                · next ob ts₅ hob =>
                  split at h
                  · next hsemi =>
                    simp only [Except.ok.injEq, Prod.mk.injEq] at h
                    obtain ⟨rfl, rfl⟩ := h
                    have hnets : ts ≠ [] := by
                      rintro rfl
                      rw [parse_expr_list_nil] at hcols
                      cases hcols
                    have hts₅ : ts₅ ≠ [] := list_head?_ne_nil hsemi
                    have hts₄ : ts₄ ≠ [] :=
                      ne_nil_of_len_le (parse_orderby_len fuel ts₄ ob ts₅ hob) hts₅
                    have hts₁ : ts₁ ≠ [] := list_head?_ne_nil (expect_token_head hexp)
                    have hnstar' : ¬((ts ++ ex).head? = some .Star) := by
                      rw [list_head?_append_eq ex hnets]; exact hnstar
                    have hnfrom' : ¬((ts ++ ex).head? = some (.Keyword .From)) := by
                      rw [list_head?_append_eq ex hnets]; exact hnfrom
                    have hsemi' : (ts₅ ++ ex).head? = some .Semicolon :=
                      list_head?_append hsemi
                    simp only [parse_select, if_neg hnstar', if_neg hnfrom',
                      parse_expr_list_ext fuel ts columns ts₁ ex hcols hts₁,
                      expect_token_ext ex hexp, parse_identifier_ext ex hpid,
                      parse_where_ext fuel ts₃ wh ts₄ ex hw hts₄,
                      parse_orderby_ext fuel ts₄ ob ts₅ ex hob hts₅,
                      hsemi', if_true, list_tail_append ex hts₅]
                  · cases h

theorem parse_create_table_ext (fuel : Nat) :
    ∀ ts st rem ex, parse_create_table fuel ts = .ok (st, rem) →
      parse_create_table fuel (ts ++ ex) = .ok (st, rem ++ ex) := by
  cases fuel with
  | zero => exact fun ts st rem ex h => absurd h (by simp [parse_create_table])
  | succ fuel =>
    intro ts st rem ex h
    simp only [parse_create_table] at h
    split at h
    · cases h
    · next ts₁ hexp1 =>
      split at h
      · cases h
      · next tableName ts₂ hpid =>
        split at h
        · cases h
        · next ts₃ hexp2 =>
          split at h
          · cases h
          · next cols ts₄ hcols =>
            split at h
            · cases h
            · next ts₅ hexp3 =>
              split at h
              · next hsemi =>
                simp only [Except.ok.injEq, Prod.mk.injEq] at h
                obtain ⟨rfl, rfl⟩ := h
                have hts₄ : ts₄ ≠ [] := list_head?_ne_nil (expect_token_head hexp3)
                have hts₅ : ts₅ ≠ [] := list_head?_ne_nil hsemi
                have hsemi' : (ts₅ ++ ex).head? = some .Semicolon :=
                  list_head?_append hsemi
                simp only [parse_create_table, expect_token_ext ex hexp1,
                  parse_identifier_ext ex hpid, expect_token_ext ex hexp2,
                  parse_column_defs_ext fuel ts₃ cols ts₄ ex hcols hts₄,
                  expect_token_ext ex hexp3, hsemi', if_true, list_tail_append ex hts₅]
              · cases h

/-- C9 (amended): the statement parser never inspects tokens after the
terminating semicolon it consumes: for every fuel, whenever `parse`
succeeds on a token stream, appending arbitrary extra tokens leaves the
parsed statement unchanged (the extra tokens simply remain unconsumed).
The original claim fails at the string level because `Parser::new`
tokenizes the whole input first, so trailing text that the scanner
rejects changes the result (see the counterexample). -/
theorem c9_parser_ignores_tokens_after_semicolon (fuel : Nat)
    (ts extra : List Token) (st : Statement) (rem : List Token)
    (h : parse fuel ts = .ok (st, rem)) :
    parse fuel (ts ++ extra) = .ok (st, rem ++ extra) := by
  cases fuel with
  | zero => exact absurd h (by simp [parse])
  | succ fuel =>
    simp only [parse] at h ⊢
    split at h
    · next hh =>
      simp only [list_head?_append hh,
        list_tail_append extra (list_head?_ne_nil hh),
        parse_select_ext fuel ts.tail st rem extra h]
    · next hh =>
      simp only [list_head?_append hh,
        list_tail_append extra (list_head?_ne_nil hh),
        parse_create_table_ext fuel ts.tail st rem extra h]
    · cases h

/-- C9 counterexample: `SELECT a FROM t;` parses successfully, but
appending the trailing text `?` after the terminating semicolon turns
the result into an error, because the whole input is tokenized before
parsing and `?` is a lexical error (which `Parser::new` then replaces
with the token list `[Eof]`). -/
theorem c9_counterexample :
    parse_input "SELECT a FROM t;" =
      .res (.ok (.Select [.Identifier "a"] "t" none [])) ∧
      parse_input "SELECT a FROM t;?" =
        .res (.error (.UnexpectedToken .Eof)) := by
  exact ⟨by decide, by decide⟩

/-- C9 witness: the extension theorem applied to the token form of
`SELECT a FROM t;` with the extra token `*` appended. -/
theorem c9_witness :
    parse 20 [.Keyword .Select, .Identifier "a", .Keyword .From,
        .Identifier "t", .Semicolon, .Eof] =
      .ok (.Select [.Identifier "a"] "t" none [], [Token.Eof]) ∧
      parse 20 ([.Keyword .Select, .Identifier "a", .Keyword .From,
          .Identifier "t", .Semicolon, .Eof] ++ [.Star]) =
        .ok (.Select [.Identifier "a"] "t" none [], [Token.Eof] ++ [.Star]) :=
  ⟨by decide, c9_parser_ignores_tokens_after_semicolon 20 _ [.Star] _ _ (by decide)⟩
